import Mathlib

/-!
Verification model of the ion-rust in-memory element module
(`src/element/owned.rs`): the `Value` tagged union, the annotated
`Element` wrapper, the `List`/`SExp` sequence containers, the `Struct`
container with its `by_index`/`by_name` field index, and the two
equality relations (structural `==` via `PartialEq`, and format
equivalence via `ion_eq`).

External collaborator types that are not part of the supplied source
(`Symbol`, `f64`, `Decimal`, `Timestamp`, `Int`, `IndexVec`, and the
`IonEq` leaf implementations for the scalar types) are modelled from
the specification, as marked on each definition.
-/

set_option maxHeartbeats 1000000

namespace Ion

/-- Modelled from the spec: the symbol domain (`Symbol`, `src/symbol.rs`,
not included in the source excerpt). A symbol "may carry known text, or
only a numeric/placeholder identity". -/
inductive Symbol where
  | known (text : String)
  | unknown (id : Nat)
deriving DecidableEq, Repr

/-- Modelled from the spec: `Symbol::text()` returns the resolved text,
if any. -/
def Symbol.text : Symbol → Option String
  | .known t => some t
  | .unknown _ => none

/-- Modelled from the spec: symbol equality ("equality is by
identity-or-text per rules defined by the symbol domain"); per the spec,
all symbols whose text is unresolved "collapse into that one bucket for
lookup purposes, regardless of the unresolved symbols' distinct
placeholder identities", so symbol equality identifies all
unknown-text symbols. -/
def Symbol.eq : Symbol → Symbol → Bool
  | .known t1, .known t2 => decide (t1 = t2)
  | .unknown _, .unknown _ => true
  | _, _ => false

/-- Modelled from the spec: `Symbol::unknown_text()`, the "cheap,
stack-allocated Symbol with unknown text" used as the reserved lookup
key for all unresolved-text field names. -/
def Symbol.unknown_text : Symbol := .unknown 0

/-- Modelled from the spec: a 64-bit IEEE float, abstracted to the
features the data model observes (NaN, signed zero, finite magnitudes,
infinities). Arithmetic is out of scope; only comparison is used. -/
inductive F64 where
  | nan
  | negZero
  | lit (q : ℚ)
  | inf
  | negInf
deriving DecidableEq, Repr

/-- Modelled from the spec: IEEE-754 `==` on `f64` ("float compares per
standard floating-point rules - so NaN == NaN is false and signed zeros
compare equal"). -/
def F64.eq : F64 → F64 → Bool
  | .nan, _ => false
  | _, .nan => false
  | .negZero, .negZero => true
  | .negZero, .lit q => decide (q = 0)
  | .lit q, .negZero => decide (q = 0)
  | .lit a, .lit b => decide (a = b)
  | .inf, .inf => true
  | .negInf, .negInf => true
  | _, _ => false

/-- Modelled from the spec: `IonEq for f64` (`src/ion_eq.rs`, not in the
source excerpt): "equivalence treats NaN as equivalent to itself (unlike
structural equality) and otherwise matches IEEE comparison semantics for
finite/infinite values". -/
def F64.ion_eq (a b : F64) : Bool :=
  match a, b with
  | .nan, .nan => true
  | _, _ => F64.eq a b

/-- Modelled from the spec: the opaque exact decimal type
(`src/types/decimal.rs`, not in the source excerpt), whose structural
equality "is exact-representation equality, i.e. two decimals with the
same numeric value but different stored exponent are NOT structurally
equal". -/
structure Decimal where
  coefficient : Int
  exponent : Int
deriving DecidableEq, Repr

/-- Modelled from the spec: `IonEq for Decimal` "defers to each type's
own externally-defined equivalence predicate", opaque to this core;
modelled as exact-representation equality (no claim depends on its
internals). -/
def Decimal.ion_eq (a b : Decimal) : Bool := decide (a = b)

/-- Modelled from the spec: the opaque timestamp-with-precision type
(`src/types/timestamp.rs`, not in the source excerpt); structural
equality is exact-representation equality. -/
structure Timestamp where
  epochMillis : Int
  precision : Nat
deriving DecidableEq, Repr

/-- Modelled from the spec: `IonEq for Timestamp`, an externally-defined
equivalence predicate opaque to this core; modelled as
exact-representation equality (no claim depends on its internals). -/
def Timestamp.ion_eq (a b : Timestamp) : Bool := decide (a = b)

/-- The `IonType` type tag: "each scalar variant maps to exactly one
type-tag; Null carries its own tag directly". -/
inductive IonType where
  | null
  | bool
  | int
  | float
  | decimal
  | timestamp
  | symbol
  | string
  | clob
  | blob
  | list
  | sexp
  | strukt
deriving DecidableEq, Repr

mutual

/-- `enum Value` from `src/element/owned.rs`: "Variants for all values
within an Element". The Rust `Int` (i64 or BigInt, external to the
excerpt) is modelled from the spec as an unbounded integer, since the
spec states the "arbitrary-precision integer compares by value". Blob
and clob payloads are byte sequences. -/
inductive Value where
  | null (t : IonType)
  | int (i : Int)
  | float (f : F64)
  | decimal (d : Decimal)
  | timestamp (ts : Timestamp)
  | string (s : String)
  | symbol (s : Symbol)
  | bool (b : Bool)
  | blob (bytes : List Nat)
  | clob (bytes : List Nat)
  | sexp (s : SExp)
  | list (l : IonList)
  | strukt (s : Struct)

/-- `struct List` from `src/element/owned.rs` (named `IonList` here to
avoid clashing with Lean's `List`): an ordered sequence of elements. -/
inductive IonList where
  | mk (children : List Element)

/-- `struct SExp` from `src/element/owned.rs`: an ordered sequence of
elements, nominally distinct from `IonList`. -/
inductive SExp where
  | mk (children : List Element)

/-- `struct Fields` from `src/element/owned.rs`: `by_index` holds the
key/value pairs in insertion order; `by_name` maps symbols to the list
of indexes where values may be found in `by_index`. The Rust `HashMap`
is modelled as an association list (bucket order is irrelevant to every
operation; the map is only ever iterated whole or probed by key), and
the `IndexVec` (external to the excerpt) as a `List Nat`. -/
inductive Fields where
  | mk (byIndex : List (Symbol × Element)) (byName : List (Symbol × List Nat))

/-- `struct Struct` from `src/element/owned.rs`: a struct is its field
collection. -/
inductive Struct where
  | mk (fields : Fields)

/-- `struct Element` from `src/element/owned.rs`: "An (annotations,
value) pair representing an Ion value." -/
inductive Element where
  | mk (annotations : List Symbol) (value : Value)

end

mutual

/-- Structural weight of a `Value`, used only as a fuel bound for the
equality interpreter below. -/
def Value.wt : Value → Nat
  | .null _ => 1
  | .int _ => 1
  | .float _ => 1
  | .decimal _ => 1
  | .timestamp _ => 1
  | .string _ => 1
  | .symbol _ => 1
  | .bool _ => 1
  | .blob _ => 1
  | .clob _ => 1
  | .sexp s => 1 + s.wt
  | .list l => 1 + l.wt
  | .strukt s => 1 + s.wt

/-- Structural weight of an `IonList` (fuel bound only). -/
def IonList.wt : IonList → Nat
  | .mk ch => 1 + elemsWt ch

/-- Structural weight of a `SExp` (fuel bound only). -/
def SExp.wt : SExp → Nat
  | .mk ch => 1 + elemsWt ch

/-- Structural weight of a list of elements (fuel bound only). -/
def elemsWt : List Element → Nat
  | [] => 0
  | e :: t => 1 + e.wt + elemsWt t

/-- Structural weight of a `by_index` pair list (fuel bound only). -/
def pairsWt : List (Symbol × Element) → Nat
  | [] => 0
  | p :: t => 1 + p.2.wt + pairsWt t

/-- Structural weight of a `Fields` (fuel bound only). -/
def Fields.wt : Fields → Nat
  | .mk bi _ => 1 + pairsWt bi

/-- Structural weight of a `Struct` (fuel bound only). -/
def Struct.wt : Struct → Nat
  | .mk f => 1 + f.wt

/-- Structural weight of an `Element` (fuel bound only). -/
def Element.wt : Element → Nat
  | .mk _ v => 1 + v.wt

end

/-- Projection for `Element.annotations`. -/
def Element.annotations : Element → List Symbol
  | .mk a _ => a

/-- Projection for `Element.value` (source: `Element::value`). -/
def Element.value : Element → Value
  | .mk _ v => v

/-- Projection for `IonList.children`. -/
def IonList.children : IonList → List Element
  | .mk c => c

/-- Projection for `SExp.children`. -/
def SExp.children : SExp → List Element
  | .mk c => c

/-- Projection for `Fields.byIndex`. -/
def Fields.byIndex : Fields → List (Symbol × Element)
  | .mk bi _ => bi

/-- Projection for `Fields.byName`. -/
def Fields.byName : Fields → List (Symbol × List Nat)
  | .mk _ bn => bn

/-- Projection for `Struct.fields`. -/
def Struct.fields : Struct → Fields
  | .mk f => f

/-- Structural equality of annotation sequences (`Vec<Symbol> ==` in
Rust: element-wise, ordered, same length). -/
def symListEq : List Symbol → List Symbol → Bool
  | [], [] => true
  | a :: t1, b :: t2 => Symbol.eq a b && symListEq t1 t2
  | _, _ => false

/-- `HashMap::get` on the association-list model of `by_name`: the
first bucket whose stored key equals the probe key. -/
def alistGet (m : List (Symbol × List Nat)) (k : Symbol) : Option (List Nat) :=
  (m.find? (fun b => Symbol.eq b.1 k)).map Prod.snd

/-- `by_name.entry(name).or_insert_with(IndexVec::new).push(i)` on the
association-list model: append `i` to the bucket of the first key equal
to `k` (keeping the stored key, as `HashMap::entry` does), or append a
fresh bucket if no key matches. -/
def alistPush : List (Symbol × List Nat) → Symbol → Nat → List (Symbol × List Nat)
  | [], k, i => [(k, [i])]
  | b :: rest, k, i =>
    if Symbol.eq b.1 k then (b.1, b.2 ++ [i]) :: rest
    else b :: alistPush rest k i

/-- `Fields::get_indexes` (`src/element/owned.rs:207`): if the probe
symbol has defined text, look the text up in `by_name`; otherwise use
the reserved unknown-text symbol as the key. -/
def Fields.get_indexes (f : Fields) (k : Symbol) : Option (List Nat) :=
  match k.text with
  | some t => alistGet f.byName (Symbol.known t)
  | none => alistGet f.byName Symbol.unknown_text

/-- `Fields::get_values_at_indexes` (`src/element/owned.rs:224`): the
values found at the specified indexes of `by_index`, in index order
(`FieldValuesIterator` is external to the excerpt; modelled from the
spec: "project every position to its element, in original insertion
order"). -/
def Fields.get_values_at_indexes (f : Fields) (idxs : List Nat) : List Element :=
  idxs.filterMap (fun i => (f.byIndex[i]?).map Prod.snd)

/-- `Fields::get_last` (`src/element/owned.rs:240`): the value at the
last index associated with the field name. -/
def Fields.get_last (f : Fields) (k : Symbol) : Option Element :=
  (((f.get_indexes k).bind List.getLast?).bind (fun i => f.byIndex[i]?)).map Prod.snd

/-- `Fields::get_all` (`src/element/owned.rs:248`): all values
associated with the field name, in insertion order (an absent bucket
yields the empty iterator). -/
def Fields.get_all (f : Fields) (k : Symbol) : List Element :=
  match f.get_indexes k with
  | none => []
  | some idxs => f.get_values_at_indexes idxs

/-- `Struct::len` (`src/element/owned.rs:327`): the number of fields. -/
def Struct.len (s : Struct) : Nat := s.fields.byIndex.length

/-- `Struct::is_empty` (`src/element/owned.rs:332`). -/
def Struct.is_empty (s : Struct) : Bool := s.len == 0

/-- `Struct::get` (`src/element/owned.rs:367`). -/
def Struct.get (s : Struct) (k : Symbol) : Option Element := s.fields.get_last k

/-- `Struct::get_all` (`src/element/owned.rs:371`). -/
def Struct.get_all (s : Struct) (k : Symbol) : List Element := s.fields.get_all k

/-- One step of `FromIterator for Struct` (`src/element/owned.rs:343`):
record the index of the new field in its name's bucket (the bucket is
keyed on symbol equality, so all unknown-text names share one bucket),
then append the pair to `by_index`. -/
def structPush (acc : List (Symbol × Element) × List (Symbol × List Nat))
    (p : Symbol × Element) : List (Symbol × Element) × List (Symbol × List Nat) :=
  (acc.1 ++ [p], alistPush acc.2 p.1 acc.1.length)

/-- `FromIterator for Struct` (`src/element/owned.rs:337`): build a
struct from an ordered list of (name, value) pairs, constructing
`by_index` and `by_name` incrementally. -/
def Struct.from_iter (ps : List (Symbol × Element)) : Struct :=
  let r := ps.foldl structPush ([], [])
  Struct.mk (Fields.mk r.1 r.2)

/-- `IonSequence::get` for `List` (`src/element/owned.rs:123`):
`children.get(index)`. -/
def IonList.get (l : IonList) (i : Nat) : Option Element := l.children[i]?

/-- `IonSequence::len` for `List` (`src/element/owned.rs:127`). -/
def IonList.len (l : IonList) : Nat := l.children.length

/-- `IonSequence::get` for `SExp` (`src/element/owned.rs:183`). -/
def SExp.get (s : SExp) (i : Nat) : Option Element := s.children[i]?

/-- `IonSequence::len` for `SExp` (`src/element/owned.rs:187`). -/
def SExp.len (s : SExp) : Nat := s.children.length

/-! ### The equality interpreter

`PartialEq` (structural `==`) and `IonEq` (format equivalence) are one
mutually recursive family: `Struct`'s `PartialEq` goes through
`fields_eq`, which compares field values with `ion_eq`, and `IonEq for
Value` falls back to `==` for every variant pair without a bespoke
rule. The family is written as a single interpreter over a request
type, structurally recursive on a fuel argument so that it reduces by
computation; the fuel bound `EqReq.fuelNeed` is shown sufficient by
`eqRun_agrees` below, and the public comparison functions run the
interpreter with sufficient fuel. -/

/-- A pending comparison of the mutually recursive equality family. -/
inductive EqReq where
  | valEq (v1 v2 : Value)
  | elemEq (e1 e2 : Element)
  | elemListEq (l1 l2 : List Element)
  | structEq (s1 s2 : Struct)
  | fieldsEq (f1 f2 : Fields)
  | ionValEq (v1 v2 : Value)
  | ionElemEq (e1 e2 : Element)
  | ionVecEq (l1 l2 : List Element)

/-- Fuel bound for a request: the combined size of the compared values,
plus a small per-function offset covering the steps of the family that
do not shrink their arguments (the `ion_eq` fallback to `==`). -/
def EqReq.fuelNeed : EqReq → Nat
  | .valEq v1 v2 => v1.wt + v2.wt
  | .elemEq e1 e2 => e1.wt + e2.wt
  | .elemListEq l1 l2 => elemsWt l1 + elemsWt l2
  | .structEq s1 s2 => s1.wt + s2.wt
  | .fieldsEq f1 f2 => f1.wt + f2.wt
  | .ionValEq v1 v2 => v1.wt + v2.wt + 1
  | .ionElemEq e1 e2 => e1.wt + e2.wt + 2
  | .ionVecEq l1 l2 => elemsWt l1 + elemsWt l2 + 2

/-- The equality interpreter. Each case is the transcription of one
source implementation:
* `valEq`: the derived `PartialEq for Value` (same variant, payload
  equality; `Struct` uses its manual impl);
* `elemEq`: `PartialEq for Element` (`src/element/owned.rs:508`),
  `self.value == other.value && self.annotations == other.annotations`;
* `elemListEq`: `Vec<Element> ==` (length plus pairwise `==`);
* `structEq`: `PartialEq for Struct` (`src/element/owned.rs:376`),
  `self.len() == other.len() && self.fields_eq(other) && other.fields_eq(self)`;
* `fieldsEq`: `Struct::fields_eq` (`src/element/owned.rs:296`): for
  each `by_name` bucket of the first struct, the second struct must
  have a same-named bucket of the same length, and every value of the
  first bucket must be `ion_eq` to some value of the second;
* `ionValEq`: `IonEq for Value` (`src/element/owned.rs:390`): bespoke
  rules for Float/Decimal/Timestamp/List/SExp, otherwise fall back to
  vanilla equality;
* `ionElemEq`: `IonEq for Element` (`src/element/owned.rs:406`),
  `self.annotations == other.annotations && self.value.ion_eq(&other.value)`;
* `ionVecEq`: `IonEq for S: IonSequence` (`src/element/owned.rs:136`)
  and the identical `IonEq for Vec<Element>` (`src/element/owned.rs:412`):
  same length and position-wise `ion_eq` children. -/
def eqRun : Nat → EqReq → Bool
  | 0, _ => false
  | n + 1, r =>
    match r with
    | .valEq v1 v2 =>
      match v1, v2 with
      | .null t1, .null t2 => decide (t1 = t2)
      | .int i1, .int i2 => decide (i1 = i2)
      | .float f1, .float f2 => F64.eq f1 f2
      | .decimal d1, .decimal d2 => decide (d1 = d2)
      | .timestamp t1, .timestamp t2 => decide (t1 = t2)
      | .string s1, .string s2 => decide (s1 = s2)
      | .symbol s1, .symbol s2 => Symbol.eq s1 s2
      | .bool b1, .bool b2 => decide (b1 = b2)
      | .blob b1, .blob b2 => decide (b1 = b2)
      | .clob c1, .clob c2 => decide (c1 = c2)
      | .sexp x1, .sexp x2 => eqRun n (.elemListEq x1.children x2.children)
      | .list l1, .list l2 => eqRun n (.elemListEq l1.children l2.children)
      | .strukt s1, .strukt s2 => eqRun n (.structEq s1 s2)
      | _, _ => false
    | .elemEq e1 e2 =>
      eqRun n (.valEq e1.value e2.value) && symListEq e1.annotations e2.annotations
    | .elemListEq l1 l2 =>
      decide (l1.length = l2.length) && (l1.zip l2).all (fun p => eqRun n (.elemEq p.1 p.2))
    | .structEq s1 s2 =>
      decide (s1.len = s2.len) && eqRun n (.fieldsEq s1.fields s2.fields)
        && eqRun n (.fieldsEq s2.fields s1.fields)
    | .fieldsEq f g =>
      f.byName.all (fun b =>
        match g.get_indexes b.1 with
        | none => false
        | some odxs =>
          decide (b.2.length = odxs.length) &&
            (f.get_values_at_indexes b.2).all (fun fv =>
              !((g.get_values_at_indexes odxs).all (fun ov =>
                !(eqRun n (.ionElemEq fv ov))))))
    | .ionValEq v1 v2 =>
      match v1, v2 with
      | .float f1, .float f2 => F64.ion_eq f1 f2
      | .decimal d1, .decimal d2 => Decimal.ion_eq d1 d2
      | .timestamp t1, .timestamp t2 => Timestamp.ion_eq t1 t2
      | .list l1, .list l2 => eqRun n (.ionVecEq l1.children l2.children)
      | .sexp x1, .sexp x2 => eqRun n (.ionVecEq x1.children x2.children)
      | v1, v2 => eqRun n (.valEq v1 v2)
    | .ionElemEq e1 e2 =>
      symListEq e1.annotations e2.annotations && eqRun n (.ionValEq e1.value e2.value)
    | .ionVecEq l1 l2 =>
      decide (l1.length = l2.length) && (l1.zip l2).all (fun p => eqRun n (.ionElemEq p.1 p.2))

/-- Run a comparison request with sufficient fuel. -/
def runReq (r : EqReq) : Bool := eqRun (r.fuelNeed + 1) r

/-- Structural `==` on `Value` (the derived `PartialEq for Value`). -/
def Value.eq (v1 v2 : Value) : Bool := runReq (.valEq v1 v2)

/-- Structural `==` on `Element` (`PartialEq for Element`,
`src/element/owned.rs:508`). -/
def Element.eq (e1 e2 : Element) : Bool := runReq (.elemEq e1 e2)

/-- Structural `==` on `Struct` (`PartialEq for Struct`,
`src/element/owned.rs:376`). -/
def Struct.eq (s1 s2 : Struct) : Bool := runReq (.structEq s1 s2)

/-- `Struct::fields_eq` (`src/element/owned.rs:296`). -/
def Struct.fields_eq (s1 s2 : Struct) : Bool := runReq (.fieldsEq s1.fields s2.fields)

/-- `IonEq for Value` (`src/element/owned.rs:390`). -/
def Value.ion_eq (v1 v2 : Value) : Bool := runReq (.ionValEq v1 v2)

/-- `IonEq for Element` (`src/element/owned.rs:406`). -/
def Element.ion_eq (e1 e2 : Element) : Bool := runReq (.ionElemEq e1 e2)

/-- `IonEq` for the `List` sequence (the blanket
`impl<S: IonSequence> IonEq for S`, `src/element/owned.rs:136`). -/
def IonList.ion_eq (l1 l2 : IonList) : Bool := runReq (.ionVecEq l1.children l2.children)

/-- `IonEq` for the `SExp` sequence (the blanket
`impl<S: IonSequence> IonEq for S`, `src/element/owned.rs:136`). -/
def SExp.ion_eq (s1 s2 : SExp) : Bool := runReq (.ionVecEq s1.children s2.children)

/-- `IonEq for Vec<Element>` (`src/element/owned.rs:412`). -/
def elemVecIonEq (l1 l2 : List Element) : Bool := runReq (.ionVecEq l1 l2)

/-! ### Element API -/

/-- `Element::new` (`src/element/owned.rs:476`). -/
def Element.new (annotations : List Symbol) (value : Value) : Element :=
  Element.mk annotations value

/-- `Element::ion_type` (`src/element/owned.rs:662`). -/
def Element.ion_type (e : Element) : IonType :=
  match e.value with
  | .null t => t
  | .int _ => .int
  | .float _ => .float
  | .decimal _ => .decimal
  | .timestamp _ => .timestamp
  | .string _ => .string
  | .symbol _ => .symbol
  | .bool _ => .bool
  | .blob _ => .blob
  | .clob _ => .clob
  | .sexp _ => .sexp
  | .list _ => .list
  | .strukt _ => .strukt

/-- `Element::with_annotations` (`src/element/owned.rs:686`): a new
element from the given annotation sequence and `self.value`. -/
def Element.with_annotations (e : Element) (annotations : List Symbol) : Element :=
  Element.new annotations e.value

/-- `Element::is_null` (`src/element/owned.rs:700`). -/
def Element.is_null (e : Element) : Bool :=
  match e.value with
  | .null _ => true
  | _ => false

/-- `Element::as_int` (`src/element/owned.rs:704`). -/
def Element.as_int (e : Element) : Option Int :=
  match e.value with
  | .int i => some i
  | _ => none

/-- `Element::as_float` (`src/element/owned.rs:711`). -/
def Element.as_float (e : Element) : Option F64 :=
  match e.value with
  | .float f => some f
  | _ => none

/-- `Element::as_decimal` (`src/element/owned.rs:718`). -/
def Element.as_decimal (e : Element) : Option Decimal :=
  match e.value with
  | .decimal d => some d
  | _ => none

/-- `Element::as_timestamp` (`src/element/owned.rs:725`). -/
def Element.as_timestamp (e : Element) : Option Timestamp :=
  match e.value with
  | .timestamp t => some t
  | _ => none

/-- `Element::as_text` (`src/element/owned.rs:732`). -/
def Element.as_text (e : Element) : Option String :=
  match e.value with
  | .string s => some s
  | .symbol sym => sym.text
  | _ => none

/-- `Element::as_string` (`src/element/owned.rs:740`). -/
def Element.as_string (e : Element) : Option String :=
  match e.value with
  | .string s => some s
  | _ => none

/-- `Element::as_symbol` (`src/element/owned.rs:747`). -/
def Element.as_symbol (e : Element) : Option Symbol :=
  match e.value with
  | .symbol s => some s
  | _ => none

/-- `Element::as_bool` (`src/element/owned.rs:754`). -/
def Element.as_bool (e : Element) : Option Bool :=
  match e.value with
  | .bool b => some b
  | _ => none

/-- `Element::as_blob` (`src/element/owned.rs:768`). -/
def Element.as_blob (e : Element) : Option (List Nat) :=
  match e.value with
  | .blob b => some b
  | _ => none

/-- `Element::as_clob` (`src/element/owned.rs:775`). -/
def Element.as_clob (e : Element) : Option (List Nat) :=
  match e.value with
  | .clob c => some c
  | _ => none

/-- `Element::as_sexp` (`src/element/owned.rs:790`). -/
def Element.as_sexp (e : Element) : Option SExp :=
  match e.value with
  | .sexp s => some s
  | _ => none

/-- `Element::as_list` (`src/element/owned.rs:797`). -/
def Element.as_list (e : Element) : Option IonList :=
  match e.value with
  | .list l => some l
  | _ => none

/-- `Element::as_struct` (`src/element/owned.rs:804`). -/
def Element.as_struct (e : Element) : Option Struct :=
  match e.value with
  | .strukt s => some s
  | _ => none

/-- `Element::float` (`src/element/owned.rs:53`): a float value with no
annotations (all `From<T> for Element` conversions attach an empty
annotation sequence, `src/element/owned.rs:526`). -/
def Element.float (f : F64) : Element := Element.mk [] (Value.float f)

/-- `Element::integer` (`src/element/owned.rs:40`). -/
def Element.integer (i : Int) : Element := Element.mk [] (Value.int i)

/-- `Element::symbol` (`src/element/owned.rs:35`). -/
def Element.symbolVal (s : Symbol) : Element := Element.mk [] (Value.symbol s)

/-- `Element::boolean` (`src/element/owned.rs:26`). -/
def Element.boolean (b : Bool) : Element := Element.mk [] (Value.bool b)

/-- `Element::string` (`src/element/owned.rs:30`). -/
def Element.string (s : String) : Element := Element.mk [] (Value.string s)

/-! ### Fuel sufficiency for the equality interpreter -/

/-- Congruence for `List.all` under pointwise agreement on members. -/
theorem all_congr_mem {α : Type} {l : List α} {p q : α → Bool}
    (h : ∀ a ∈ l, p a = q a) : l.all p = l.all q := by
  induction l with
  | nil => rfl
  | cons a t ih =>
    simp only [List.all_cons, h a (List.mem_cons_self a t),
      ih (fun x hx => h x (List.mem_cons_of_mem a hx))]

/-- A member of a list of elements weighs strictly less than the list. -/
theorem elemWt_lt_of_mem {e : Element} {l : List Element} (h : e ∈ l) :
    e.wt < elemsWt l := by
  induction l with
  | nil => cases h
  | cons a t ih =>
    rcases List.mem_cons.mp h with rfl | h2
    · simp only [elemsWt]; omega
    · have := ih h2; simp only [elemsWt]; omega

/-- The value of a member of a `by_index` pair list weighs strictly less
than the pair list. -/
theorem pairWt_lt_of_mem {p : Symbol × Element} {l : List (Symbol × Element)}
    (h : p ∈ l) : p.2.wt < pairsWt l := by
  induction l with
  | nil => cases h
  | cons a t ih =>
    rcases List.mem_cons.mp h with rfl | h2
    · simp only [pairsWt]; omega
    · have := ih h2; simp only [pairsWt]; omega

/-- Weight of an `IonList` in terms of its children. -/
theorem ionList_wt_children (l : IonList) : l.wt = 1 + elemsWt l.children := by
  cases l; rfl

/-- Weight of a `SExp` in terms of its children. -/
theorem sexp_wt_children (s : SExp) : s.wt = 1 + elemsWt s.children := by
  cases s; rfl

/-- Weight of a `Fields` in terms of its pair list. -/
theorem fields_wt_byIndex (f : Fields) : f.wt = 1 + pairsWt f.byIndex := by
  cases f; rfl

/-- Weight of a `Struct` in terms of its fields. -/
theorem struct_wt_fields (s : Struct) : s.wt = 1 + s.fields.wt := by
  cases s; rfl

/-- Weight of an `Element` in terms of its value. -/
theorem element_wt_value (e : Element) : e.wt = 1 + e.value.wt := by
  cases e; rfl

/-- Any element produced by `get_values_at_indexes` comes from
`by_index`, so it weighs less than the `Fields` that contain it. -/
theorem mem_values_wt {f : Fields} {idxs : List Nat} {e : Element}
    (h : e ∈ f.get_values_at_indexes idxs) : e.wt + 2 ≤ f.wt := by
  unfold Fields.get_values_at_indexes at h
  obtain ⟨i, _, hsome⟩ := List.mem_filterMap.mp h
  obtain ⟨pr, hpr, hpe⟩ := Option.map_eq_some'.mp hsome
  have hm : pr ∈ f.byIndex := List.getElem?_mem hpr
  have hlt := pairWt_lt_of_mem hm
  subst hpe
  rw [fields_wt_byIndex f]
  omega

/-- Fuel irrelevance for the equality interpreter: any two fuel amounts
strictly above `fuelNeed` give the same result. Hence `runReq` computes
the limit of the interpreter, i.e. the recursive functions of the
source. -/
theorem eqRun_agrees (k : Nat) :
    ∀ r : EqReq, r.fuelNeed ≤ k → ∀ n m : Nat,
      r.fuelNeed < n → r.fuelNeed < m → eqRun n r = eqRun m r := by
  induction k using Nat.strong_induction_on with
  | _ k IH =>
    intro r hrk n m hn hm
    obtain ⟨n0, rfl⟩ : ∃ n0, n = n0 + 1 := ⟨n - 1, by omega⟩
    obtain ⟨m0, rfl⟩ : ∃ m0, m = m0 + 1 := ⟨m - 1, by omega⟩
    have IH' : ∀ r' : EqReq, r'.fuelNeed < r.fuelNeed → eqRun n0 r' = eqRun m0 r' := by
      intro r' h
      exact IH r'.fuelNeed (by omega) r' (le_refl _) n0 m0 (by omega) (by omega)
    cases r with
    | valEq v1 v2 =>
      cases v1 <;> cases v2 <;> try rfl
      · exact IH' (.elemListEq _ _)
          (by simp only [EqReq.fuelNeed, Value.wt, sexp_wt_children]; omega)
      · exact IH' (.elemListEq _ _)
          (by simp only [EqReq.fuelNeed, Value.wt, ionList_wt_children]; omega)
      · exact IH' (.structEq _ _)
          (by simp only [EqReq.fuelNeed, Value.wt]; omega)
    | elemEq e1 e2 =>
      simp only [eqRun]
      rw [IH' (.valEq e1.value e2.value)
        (by simp only [EqReq.fuelNeed]; rw [element_wt_value e1, element_wt_value e2]; omega)]
    | elemListEq l1 l2 =>
      simp only [eqRun]
      congr 1
      apply all_congr_mem
      rintro ⟨a, b⟩ hp
      obtain ⟨ha, hb⟩ := List.of_mem_zip hp
      exact IH' (.elemEq a b)
        (by have h1 := elemWt_lt_of_mem ha; have h2 := elemWt_lt_of_mem hb
            simp only [EqReq.fuelNeed]; omega)
    | structEq s1 s2 =>
      simp only [eqRun]
      rw [IH' (.fieldsEq s1.fields s2.fields)
            (by simp only [EqReq.fuelNeed]; rw [struct_wt_fields s1, struct_wt_fields s2]; omega),
          IH' (.fieldsEq s2.fields s1.fields)
            (by simp only [EqReq.fuelNeed]; rw [struct_wt_fields s1, struct_wt_fields s2]; omega)]
    | fieldsEq f g =>
      simp only [eqRun]
      apply all_congr_mem
      intro b hb
      cases hgi : Fields.get_indexes g b.1 with
      | none => rfl
      | some odxs =>
        dsimp only
        congr 1
        apply all_congr_mem
        intro fv hfv
        congr 1
        apply all_congr_mem
        intro ov hov
        congr 1
        exact IH' (.ionElemEq fv ov)
          (by have h1 := mem_values_wt hfv; have h2 := mem_values_wt hov
              simp only [EqReq.fuelNeed]; omega)
    | ionValEq v1 v2 =>
      cases v1 <;> cases v2 <;> try rfl
      all_goals try exact IH' (.valEq _ _) (by simp only [EqReq.fuelNeed]; omega)
      · exact IH' (.ionVecEq _ _)
          (by simp only [EqReq.fuelNeed, Value.wt, sexp_wt_children]; omega)
      · exact IH' (.ionVecEq _ _)
          (by simp only [EqReq.fuelNeed, Value.wt, ionList_wt_children]; omega)
    | ionElemEq e1 e2 =>
      simp only [eqRun]
      rw [IH' (.ionValEq e1.value e2.value)
        (by simp only [EqReq.fuelNeed]; rw [element_wt_value e1, element_wt_value e2]; omega)]
    | ionVecEq l1 l2 =>
      simp only [eqRun]
      congr 1
      apply all_congr_mem
      rintro ⟨a, b⟩ hp
      obtain ⟨ha, hb⟩ := List.of_mem_zip hp
      exact IH' (.ionElemEq a b)
        (by have h1 := elemWt_lt_of_mem ha; have h2 := elemWt_lt_of_mem hb
            simp only [EqReq.fuelNeed]; omega)

/-- Any sufficient fuel computes `runReq`. -/
theorem runReq_eq (r : EqReq) (n : Nat) (h : r.fuelNeed < n) : eqRun n r = runReq r :=
  eqRun_agrees r.fuelNeed r (le_refl _) n (r.fuelNeed + 1) h (Nat.lt_succ_self _)

/-- One-step unfolding of `PartialEq for Element`
(`src/element/owned.rs:508`): values first, then annotations. -/
theorem Element.eq_mk (a1 a2 : List Symbol) (v1 v2 : Value) :
    Element.eq (.mk a1 v1) (.mk a2 v2) = (Value.eq v1 v2 && symListEq a1 a2) := by
  unfold Element.eq runReq
  simp only [eqRun, Element.annotations, Element.value]
  rw [runReq_eq (.valEq v1 v2) _
    (by simp only [EqReq.fuelNeed, Element.wt]; omega)]
  rfl

/-- One-step unfolding of `IonEq for Element`
(`src/element/owned.rs:406`): annotation sequences must be structurally
equal and values must be format-equivalent. -/
theorem Element.ion_eq_mk (a1 a2 : List Symbol) (v1 v2 : Value) :
    Element.ion_eq (.mk a1 v1) (.mk a2 v2) = (symListEq a1 a2 && Value.ion_eq v1 v2) := by
  unfold Element.ion_eq runReq
  rw [eqRun]
  dsimp only [Element.annotations, Element.value]
  rw [runReq_eq (.ionValEq v1 v2) _
    (by simp only [EqReq.fuelNeed, Element.wt]; omega)]
  rfl

/-- One-step unfolding of `PartialEq for Struct`
(`src/element/owned.rs:376`): equal field counts and the bucket
containment check `fields_eq` in both directions. -/
theorem Struct.eq_unfold (s1 s2 : Struct) :
    Struct.eq s1 s2 =
      (decide (s1.len = s2.len) && Struct.fields_eq s1 s2 && Struct.fields_eq s2 s1) := by
  unfold Struct.eq runReq
  simp only [eqRun]
  rw [runReq_eq (.fieldsEq s1.fields s2.fields) _
        (by simp only [EqReq.fuelNeed]; rw [struct_wt_fields s1, struct_wt_fields s2]; omega),
      runReq_eq (.fieldsEq s2.fields s1.fields) _
        (by simp only [EqReq.fuelNeed]; rw [struct_wt_fields s1, struct_wt_fields s2]; omega)]
  rfl

/-- One-step unfolding of `Struct::fields_eq`
(`src/element/owned.rs:296`): for each of `self`'s `by_name` buckets,
`other` must have a same-named bucket of the same length, and every
value of `self`'s bucket must be format-equivalent (`ion_eq`, not `==`)
to some value of `other`'s bucket. -/
theorem Struct.fields_eq_unfold (s1 s2 : Struct) :
    Struct.fields_eq s1 s2 =
      s1.fields.byName.all (fun b =>
        match s2.fields.get_indexes b.1 with
        | none => false
        | some odxs =>
          decide (b.2.length = odxs.length) &&
            (s1.fields.get_values_at_indexes b.2).all (fun fv =>
              !((s2.fields.get_values_at_indexes odxs).all (fun ov =>
                !(Element.ion_eq fv ov))))) := by
  unfold Struct.fields_eq runReq
  simp only [eqRun]
  apply all_congr_mem
  intro b hb
  cases hgi : Fields.get_indexes s2.fields b.1 with
  | none => rfl
  | some odxs =>
    dsimp only
    congr 1
    apply all_congr_mem
    intro fv hfv
    congr 1
    apply all_congr_mem
    intro ov hov
    congr 1
    exact runReq_eq (.ionElemEq fv ov) _
      (by have h1 := mem_values_wt hfv; have h2 := mem_values_wt hov
          simp only [EqReq.fuelNeed]; omega)

/-- One-step unfolding of the blanket sequence `IonEq`
(`src/element/owned.rs:136`) for `List`: same length and position-wise
equivalent children. -/
theorem ionList_ion_eq_unfold (l1 l2 : IonList) :
    IonList.ion_eq l1 l2 =
      (decide (l1.children.length = l2.children.length) &&
        (l1.children.zip l2.children).all (fun p => Element.ion_eq p.1 p.2)) := by
  unfold IonList.ion_eq runReq
  rw [eqRun]
  congr 1
  apply all_congr_mem
  rintro ⟨a, b⟩ hp
  obtain ⟨ha, hb⟩ := List.of_mem_zip hp
  exact runReq_eq (.ionElemEq a b) _
    (by have h1 := elemWt_lt_of_mem ha; have h2 := elemWt_lt_of_mem hb
        simp only [EqReq.fuelNeed]; omega)

/-- One-step unfolding of the blanket sequence `IonEq`
(`src/element/owned.rs:136`) for `SExp`. -/
theorem sexp_ion_eq_unfold (s1 s2 : SExp) :
    SExp.ion_eq s1 s2 =
      (decide (s1.children.length = s2.children.length) &&
        (s1.children.zip s2.children).all (fun p => Element.ion_eq p.1 p.2)) := by
  unfold SExp.ion_eq runReq
  rw [eqRun]
  congr 1
  apply all_congr_mem
  rintro ⟨a, b⟩ hp
  obtain ⟨ha, hb⟩ := List.of_mem_zip hp
  exact runReq_eq (.ionElemEq a b) _
    (by have h1 := elemWt_lt_of_mem ha; have h2 := elemWt_lt_of_mem hb
        simp only [EqReq.fuelNeed]; omega)

/-- Projection of a literal `Struct`. -/
@[simp] theorem Struct.fields_mk (f : Fields) : (Struct.mk f).fields = f := rfl

/-- Projection of a literal `Fields`. -/
@[simp] theorem Fields.byIndex_mk (bi : List (Symbol × Element)) (bn : List (Symbol × List Nat)) :
    (Fields.mk bi bn).byIndex = bi := rfl

/-- Projection of a literal `Fields`. -/
@[simp] theorem Fields.byName_mk (bi : List (Symbol × Element)) (bn : List (Symbol × List Nat)) :
    (Fields.mk bi bn).byName = bn := rfl

/-- Congruence for `List.any` under pointwise agreement on members. -/
theorem any_congr_mem {α : Type} {l : List α} {p q : α → Bool}
    (h : ∀ a ∈ l, p a = q a) : l.any p = l.any q := by
  induction l with
  | nil => rfl
  | cons a t ih =>
    simp only [List.any_cons, h a (List.mem_cons_self a t),
      ih (fun x hx => h x (List.mem_cons_of_mem a hx))]

/-- Symbol equality is reflexive. -/
theorem Symbol.eq_refl (s : Symbol) : Symbol.eq s s = true := by
  cases s <;> simp [Symbol.eq]

/-- Symbol equality is symmetric. -/
theorem Symbol.eq_symm (a b : Symbol) : Symbol.eq a b = Symbol.eq b a := by
  cases a <;> cases b <;> simp [Symbol.eq, eq_comm]

/-- Symbol equality is transitive. -/
theorem Symbol.eq_trans {a b c : Symbol} (h1 : Symbol.eq a b = true)
    (h2 : Symbol.eq b c = true) : Symbol.eq a c = true := by
  cases a <;> cases b <;> cases c <;> simp_all [Symbol.eq]

/-- Probing a pushed association list with an equal key finds the
extended bucket. -/
theorem alistGet_push_eq (m : List (Symbol × List Nat)) (k k' : Symbol) (i : Nat)
    (h : Symbol.eq k k' = true) :
    alistGet (alistPush m k i) k' = some ((alistGet m k').getD [] ++ [i]) := by
  induction m with
  | nil => simp [alistPush, alistGet, List.find?, h]
  | cons b rest ih =>
    by_cases hb : Symbol.eq b.1 k = true
    · have hb' : Symbol.eq b.1 k' = true := Symbol.eq_trans hb h
      simp [alistPush, alistGet, List.find?, hb, hb']
    · have hb' : Symbol.eq b.1 k' = false := by
        rw [Bool.eq_false_iff]
        intro hcon
        exact hb (Symbol.eq_trans hcon (by rw [Symbol.eq_symm]; exact h))
      simp only [alistPush, Bool.not_eq_true] at hb
      simp only [alistPush, hb, if_false]
      simp only [alistGet, List.find?, hb', Bool.false_eq_true, if_false] at *
      exact ih

/-- Probing a pushed association list with a non-equal key is
unaffected by the push. -/
theorem alistGet_push_ne (m : List (Symbol × List Nat)) (k k' : Symbol) (i : Nat)
    (h : Symbol.eq k k' = false) :
    alistGet (alistPush m k i) k' = alistGet m k' := by
  induction m with
  | nil => simp [alistPush, alistGet, List.find?, h]
  | cons b rest ih =>
    by_cases hb : Symbol.eq b.1 k = true
    · have hb' : Symbol.eq b.1 k' = false := by
        rw [Bool.eq_false_iff]
        intro hcon
        have : Symbol.eq k k' = true :=
          Symbol.eq_trans (by rw [Symbol.eq_symm]; exact hb) hcon
        simp [this] at h
      simp [alistPush, alistGet, List.find?, hb, hb']
    · simp only [Bool.not_eq_true] at hb
      simp only [alistPush, hb, if_false]
      by_cases hbk : Symbol.eq b.1 k' = true
      · simp [alistGet, List.find?, hbk]
      · simp only [Bool.not_eq_true] at hbk
        simp only [alistGet, List.find?, hbk, Bool.false_eq_true, if_false] at *
        exact ih

/-- The positions of `ps` whose field name equals `k`, in ascending
(insertion) order. -/
def lookupIdxs (ps : List (Symbol × Element)) (k : Symbol) : List Nat :=
  (List.range ps.length).filter (fun i =>
    match ps[i]? with
    | some p => Symbol.eq p.1 k
    | none => false)

/-- Appending one pair extends `lookupIdxs` by at most the new
position. -/
theorem lookupIdxs_append (ps : List (Symbol × Element)) (p : Symbol × Element) (k : Symbol) :
    lookupIdxs (ps ++ [p]) k =
      lookupIdxs ps k ++ (if Symbol.eq p.1 k = true then [ps.length] else []) := by
  unfold lookupIdxs
  rw [List.length_append, List.length_singleton, List.range_succ, List.filter_append]
  congr 1
  · apply List.filter_congr
    intro i hi
    have hlt : i < ps.length := List.mem_range.mp hi
    rw [List.getElem?_append_left hlt]
  · rw [List.filter_singleton]
    rw [List.getElem?_concat_length]
    by_cases h : Symbol.eq p.1 k = true <;> simp [h]

/-- Every position in `lookupIdxs` is in range. -/
theorem lookupIdxs_lt {ps : List (Symbol × Element)} {k : Symbol} {i : Nat}
    (h : i ∈ lookupIdxs ps k) : i < ps.length :=
  List.mem_range.mp (List.mem_of_mem_filter h)

/-- If no pair of `ps` matches `k`, then `lookupIdxs` is empty. -/
theorem lookupIdxs_eq_nil {ps : List (Symbol × Element)} {k : Symbol}
    (h : ps.any (fun q => Symbol.eq q.1 k) = false) : lookupIdxs ps k = [] := by
  unfold lookupIdxs
  rw [List.filter_eq_nil_iff]
  intro i _
  cases hq : ps[i]? with
  | none => simp
  | some q =>
    have hmem : q ∈ ps := List.getElem?_mem hq
    have := List.any_eq_false.mp h q hmem
    simp [hq, this]

/-- Projecting the matching positions through the pair list recovers the
filtered pair list. -/
theorem lookupIdxs_values (ps : List (Symbol × Element)) (k : Symbol) :
    (lookupIdxs ps k).filterMap (fun i => ps[i]?) =
      ps.filter (fun q => Symbol.eq q.1 k) := by
  induction ps using List.reverseRecOn with
  | nil => rfl
  | append_singleton ps p ih =>
    rw [lookupIdxs_append, List.filterMap_append, List.filter_append]
    congr 1
    · rw [← ih]
      apply List.filterMap_congr
      intro i hi
      exact List.getElem?_append_left (lookupIdxs_lt hi)
    · by_cases h : Symbol.eq p.1 k = true <;>
        simp [h, List.filterMap, List.getElem?_concat_length, List.filter]

/-- One-step unfolding of `Struct::from_iter` over a snoc. -/
theorem from_iter_append (ps : List (Symbol × Element)) (p : Symbol × Element) :
    Struct.from_iter (ps ++ [p]) =
      Struct.mk (Fields.mk ((Struct.from_iter ps).fields.byIndex ++ [p])
        (alistPush (Struct.from_iter ps).fields.byName p.1
          (Struct.from_iter ps).fields.byIndex.length)) := by
  simp [Struct.from_iter, List.foldl_append, structPush, Struct.fields,
    Fields.byIndex, Fields.byName]

/-- `by_index` of a constructed struct is exactly the input pair list,
in insertion order. -/
theorem byIndex_from_iter (ps : List (Symbol × Element)) :
    (Struct.from_iter ps).fields.byIndex = ps := by
  induction ps using List.reverseRecOn with
  | nil => rfl
  | append_singleton ps p ih =>
    rw [from_iter_append]
    simp only [Struct.fields_mk, Fields.byIndex_mk]
    rw [ih]

/-- Probing `by_name` of a constructed struct with any key yields
exactly the positions whose field name equals the key (and nothing when
no field name matches). -/
theorem alistGet_from_iter (ps : List (Symbol × Element)) (k : Symbol) :
    alistGet (Struct.from_iter ps).fields.byName k =
      if ps.any (fun q => Symbol.eq q.1 k) = true then some (lookupIdxs ps k) else none := by
  induction ps using List.reverseRecOn with
  | nil => rfl
  | append_singleton ps p ih =>
    rw [from_iter_append]
    simp only [Struct.fields_mk, Fields.byName_mk, byIndex_from_iter]
    cases hpk : Symbol.eq p.1 k with
    | true =>
      rw [alistGet_push_eq _ _ _ _ hpk, ih, lookupIdxs_append, hpk]
      have hany : (ps ++ [p]).any (fun q => Symbol.eq q.1 k) = true := by
        rw [List.any_append]
        simp [hpk]
      rw [hany]
      cases h : ps.any (fun q => Symbol.eq q.1 k) with
      | true => simp
      | false => simp [lookupIdxs_eq_nil h]
    | false =>
      rw [alistGet_push_ne _ _ _ _ hpk, ih, lookupIdxs_append, hpk]
      have : (ps ++ [p]).any (fun q => Symbol.eq q.1 k) = ps.any (fun q => Symbol.eq q.1 k) := by
        rw [List.any_append]
        simp [hpk]
      rw [this]
      simp

/-- `Fields::get_indexes` on a constructed struct: the probe is routed
through the key's resolved text (or the reserved unknown-text symbol),
and in both cases yields exactly the positions whose field name equals
the probe key. -/
theorem get_indexes_from_iter (ps : List (Symbol × Element)) (k : Symbol) :
    (Struct.from_iter ps).fields.get_indexes k =
      if ps.any (fun q => Symbol.eq q.1 k) = true then some (lookupIdxs ps k) else none := by
  cases k with
  | known t =>
    unfold Fields.get_indexes
    simp only [Symbol.text]
    exact alistGet_from_iter ps (.known t)
  | unknown id =>
    unfold Fields.get_indexes
    simp only [Symbol.text]
    rw [alistGet_from_iter ps Symbol.unknown_text]
    have hepred : ∀ s : Symbol, Symbol.eq s Symbol.unknown_text = Symbol.eq s (.unknown id) := by
      intro s
      cases s <;> rfl
    have hany : ps.any (fun q => Symbol.eq q.1 Symbol.unknown_text) =
        ps.any (fun q => Symbol.eq q.1 (.unknown id)) := by
      apply any_congr_mem
      intro q _
      exact hepred q.1
    have hidx : lookupIdxs ps Symbol.unknown_text = lookupIdxs ps (.unknown id) := by
      unfold lookupIdxs
      apply List.filter_congr
      intro i _
      cases ps[i]? with
      | none => rfl
      | some q => exact hepred q.1
    rw [hany, hidx]

/-- The key of every bucket of a pushed association list is either a
key of the original list or the pushed key. -/
theorem alistPush_keys {m : List (Symbol × List Nat)} {k : Symbol} {i : Nat}
    {c : Symbol × List Nat} (hc : c ∈ alistPush m k i) :
    (∃ b ∈ m, c.1 = b.1) ∨ c.1 = k := by
  induction m with
  | nil =>
    simp only [alistPush, List.mem_singleton] at hc
    subst hc
    exact Or.inr rfl
  | cons b rest ih =>
    by_cases hb : Symbol.eq b.1 k = true
    · simp only [alistPush, hb, if_true, List.mem_cons] at hc
      rcases hc with rfl | hc
      · exact Or.inl ⟨b, List.mem_cons_self b rest, rfl⟩
      · exact Or.inl ⟨c, List.mem_cons_of_mem b hc, rfl⟩
    · have hb2 : Symbol.eq b.1 k = false := Bool.eq_false_iff.mpr hb
      simp only [alistPush, hb2, Bool.false_eq_true, if_false, List.mem_cons] at hc
      rcases hc with rfl | hc
      · exact Or.inl ⟨c, List.mem_cons_self c rest, rfl⟩
      · rcases ih hc with ⟨b2, hmb2, hcb⟩ | hck
        · exact Or.inl ⟨b2, List.mem_cons_of_mem b hmb2, hcb⟩
        · exact Or.inr hck

/-- Pushing preserves pairwise distinctness of bucket keys. -/
theorem alistPush_pairwise {m : List (Symbol × List Nat)} {k : Symbol} {i : Nat}
    (hp : m.Pairwise (fun b1 b2 => Symbol.eq b1.1 b2.1 = false)) :
    (alistPush m k i).Pairwise (fun b1 b2 => Symbol.eq b1.1 b2.1 = false) := by
  induction m with
  | nil => simp [alistPush]
  | cons b rest ih =>
    rw [List.pairwise_cons] at hp
    obtain ⟨hhead, htail⟩ := hp
    by_cases hb : Symbol.eq b.1 k = true
    · simp only [alistPush, hb, if_true]
      rw [List.pairwise_cons]
      exact ⟨hhead, htail⟩
    · have hb2 : Symbol.eq b.1 k = false := Bool.eq_false_iff.mpr hb
      simp only [alistPush, hb2, Bool.false_eq_true, if_false]
      rw [List.pairwise_cons]
      refine ⟨fun c hc => ?_, ih htail⟩
      rcases alistPush_keys hc with ⟨b2, hb2, hcb⟩ | hck
      · rw [Symbol.eq_symm, hcb, Symbol.eq_symm]
        exact hhead b2 hb2
      · rw [hck]
        exact Bool.eq_false_iff.mpr hb

/-- In a pairwise-key-distinct association list, probing with a stored
key finds that bucket. -/
theorem alistGet_self_of_pairwise {m : List (Symbol × List Nat)}
    (hp : m.Pairwise (fun b1 b2 => Symbol.eq b1.1 b2.1 = false))
    {b : Symbol × List Nat} (hb : b ∈ m) : alistGet m b.1 = some b.2 := by
  induction m with
  | nil => cases hb
  | cons c rest ih =>
    rw [List.pairwise_cons] at hp
    obtain ⟨hhead, htail⟩ := hp
    rcases List.mem_cons.mp hb with rfl | hb2
    · simp [alistGet, List.find?, Symbol.eq_refl]
    · have hne : Symbol.eq c.1 b.1 = false := hhead b hb2
      simp only [alistGet, List.find?, hne, Bool.false_eq_true, if_false] at *
      exact ih htail hb2

/-- The bucket keys of a constructed struct are pairwise distinct. -/
theorem byName_pairwise (ps : List (Symbol × Element)) :
    (Struct.from_iter ps).fields.byName.Pairwise
      (fun b1 b2 => Symbol.eq b1.1 b2.1 = false) := by
  induction ps using List.reverseRecOn with
  | nil => simp [Struct.from_iter]
  | append_singleton ps p ih =>
    rw [from_iter_append]
    simp only [Struct.fields_mk, Fields.byName_mk]
    exact alistPush_pairwise ih

/-- Every `by_name` bucket of a constructed struct holds exactly the
positions whose field name equals the bucket key, in insertion order. -/
theorem byName_bucket_eq (ps : List (Symbol × Element))
    {b : Symbol × List Nat} (hb : b ∈ (Struct.from_iter ps).fields.byName) :
    b.2 = lookupIdxs ps b.1 := by
  have hget := alistGet_self_of_pairwise (byName_pairwise ps) hb
  rw [alistGet_from_iter] at hget
  by_cases hany : ps.any (fun q => Symbol.eq q.1 b.1) = true
  · rw [if_pos hany] at hget
    exact (Option.some_inj.mp hget).symm
  · rw [if_neg hany] at hget
    cases hget

/-- Two entries of a pairwise-key-distinct list with equal keys are the
same entry. -/
theorem pairwise_eq_of_key_eq {m : List (Symbol × List Nat)}
    (hp : m.Pairwise (fun b1 b2 => Symbol.eq b1.1 b2.1 = false))
    {a b : Symbol × List Nat} (ha : a ∈ m) (hb : b ∈ m)
    (heq : Symbol.eq a.1 b.1 = true) : a = b := by
  induction m with
  | nil => cases ha
  | cons c rest ih =>
    rw [List.pairwise_cons] at hp
    obtain ⟨hhead, htail⟩ := hp
    rcases List.mem_cons.mp ha with rfl | ha2
    · rcases List.mem_cons.mp hb with rfl | hb2
      · rfl
      · rw [hhead b hb2] at heq
        cases heq
    · rcases List.mem_cons.mp hb with rfl | hb2
      · have := hhead a ha2
        rw [Symbol.eq_symm] at heq
        rw [this] at heq
        cases heq
      · exact ih htail ha2 hb2

/-- `getLast?` then lookup agrees with lookup of every position then
`getLast?`, when every position is resolvable. -/
theorem getLast?_bind_filterMap {α : Type} (idxs : List Nat) (f : Nat → Option α)
    (hall : ∀ i ∈ idxs, (f i).isSome = true) :
    idxs.getLast?.bind f = (idxs.filterMap f).getLast? := by
  induction idxs with
  | nil => rfl
  | cons i t ih =>
    obtain ⟨b, hb⟩ := Option.isSome_iff_exists.mp (hall i (List.mem_cons_self i t))
    cases t with
    | nil => simp [List.filterMap, hb]
    | cons j t2 =>
      obtain ⟨c, hc⟩ := Option.isSome_iff_exists.mp
        (hall j (List.mem_cons_of_mem i (List.mem_cons_self j t2)))
      have htail := ih (fun x hx => hall x (List.mem_cons_of_mem i hx))
      have hfm : List.filterMap f (j :: t2) = c :: List.filterMap f t2 := by
        simp only [List.filterMap_cons, hc]
      have hfi : List.filterMap f (i :: j :: t2) = b :: List.filterMap f (j :: t2) := by
        simp only [List.filterMap_cons, hb, hc]
      rw [List.getLast?_cons_cons, htail, hfi, hfm, List.getLast?_cons_cons]

/-- `Struct::get` on a constructed struct returns the value of the last
pair whose name equals the probe key (and `none` when no name
matches). -/
theorem struct_get_from_iter (ps : List (Symbol × Element)) (k : Symbol) :
    Struct.get (Struct.from_iter ps) k =
      ((ps.filter (fun q => Symbol.eq q.1 k)).getLast?).map Prod.snd := by
  unfold Struct.get Fields.get_last
  rw [get_indexes_from_iter, byIndex_from_iter]
  by_cases hany : ps.any (fun q => Symbol.eq q.1 k) = true
  · rw [if_pos hany]
    have hbind := getLast?_bind_filterMap (lookupIdxs ps k) (fun i => ps[i]?)
      (fun i hi => by simp [List.getElem?_eq_getElem (lookupIdxs_lt hi)])
    simp only [Option.some_bind]
    rw [hbind, lookupIdxs_values]
  · rw [if_neg hany]
    have hf : ps.any (fun q => Symbol.eq q.1 k) = false := Bool.eq_false_iff.mpr hany
    have hnil : ps.filter (fun q => Symbol.eq q.1 k) = [] := by
      rw [List.filter_eq_nil_iff]
      intro q hq
      simp [List.any_eq_false.mp hf q hq]
    simp [hnil]

/-- `Struct::get_all` on a constructed struct returns the values of all
pairs whose name equals the probe key, in insertion order. -/
theorem struct_get_all_from_iter (ps : List (Symbol × Element)) (k : Symbol) :
    Struct.get_all (Struct.from_iter ps) k =
      (ps.filter (fun q => Symbol.eq q.1 k)).map Prod.snd := by
  unfold Struct.get_all Fields.get_all Fields.get_values_at_indexes
  rw [get_indexes_from_iter, byIndex_from_iter]
  by_cases hany : ps.any (fun q => Symbol.eq q.1 k) = true
  · rw [if_pos hany]
    have hfuse := List.map_filterMap (fun i => ps[i]?) Prod.snd (lookupIdxs ps k)
    dsimp only
    rw [← hfuse, lookupIdxs_values]
  · rw [if_neg hany]
    have hf : ps.any (fun q => Symbol.eq q.1 k) = false := Bool.eq_false_iff.mpr hany
    have hnil : ps.filter (fun q => Symbol.eq q.1 k) = [] := by
      rw [List.filter_eq_nil_iff]
      intro q hq
      simp [List.any_eq_false.mp hf q hq]
    simp [hnil]

/-- A symbol equals an unknown-text probe exactly when its own text is
unresolved, whatever the probe's placeholder identity. -/
theorem Symbol.eq_unknown (s : Symbol) (i : Nat) :
    Symbol.eq s (.unknown i) = decide (s.text = none) := by
  cases s <;> simp [Symbol.eq, Symbol.text]

/-- A symbol equals a known-text probe exactly when its own text is that
text. -/
theorem Symbol.eq_known (s : Symbol) (t : String) :
    Symbol.eq s (.known t) = decide (s.text = some t) := by
  cases s <;> simp [Symbol.eq, Symbol.text]

/-- `get_indexes` with an unknown-text key, characterised by field-name
textlessness: the result does not depend on the probe's placeholder
identity and collects exactly the positions of textless field names. -/
theorem get_indexes_unknown_char (ps : List (Symbol × Element)) (i : Nat) :
    (Struct.from_iter ps).fields.get_indexes (.unknown i) =
      if ps.any (fun q => decide (q.1.text = none)) = true
      then some ((List.range ps.length).filter (fun n =>
        match ps[n]? with
        | some q => decide (q.1.text = none)
        | none => false))
      else none := by
  rw [get_indexes_from_iter]
  have hany : ps.any (fun q => Symbol.eq q.1 (.unknown i)) =
      ps.any (fun q => decide (q.1.text = none)) :=
    any_congr_mem (fun q _ => Symbol.eq_unknown q.1 i)
  have hfil : lookupIdxs ps (.unknown i) =
      (List.range ps.length).filter (fun n =>
        match ps[n]? with
        | some q => decide (q.1.text = none)
        | none => false) := by
    unfold lookupIdxs
    apply List.filter_congr
    intro n _
    cases ps[n]? with
    | none => rfl
    | some q => exact Symbol.eq_unknown q.1 i
  rw [hany, hfil]

/-- `get_indexes` with a known-text key, characterised by field-name
text: it collects exactly the positions whose field name resolves to
that text (in particular, never a textless field name). -/
theorem get_indexes_known_char (ps : List (Symbol × Element)) (t : String) :
    (Struct.from_iter ps).fields.get_indexes (.known t) =
      if ps.any (fun q => decide (q.1.text = some t)) = true
      then some ((List.range ps.length).filter (fun n =>
        match ps[n]? with
        | some q => decide (q.1.text = some t)
        | none => false))
      else none := by
  rw [get_indexes_from_iter]
  have hany : ps.any (fun q => Symbol.eq q.1 (.known t)) =
      ps.any (fun q => decide (q.1.text = some t)) :=
    any_congr_mem (fun q _ => Symbol.eq_known q.1 t)
  have hfil : lookupIdxs ps (.known t) =
      (List.range ps.length).filter (fun n =>
        match ps[n]? with
        | some q => decide (q.1.text = some t)
        | none => false) := by
    unfold lookupIdxs
    apply List.filter_congr
    intro n _
    cases ps[n]? with
    | none => rfl
    | some q => exact Symbol.eq_known q.1 t
  rw [hany, hfil]

/-- Length-check plus pairwise loop over a zip, restated as a
position-wise condition. -/
theorem zip_all_ion_iff (L1 L2 : List Element) :
    (decide (L1.length = L2.length) &&
      (L1.zip L2).all (fun p => Element.ion_eq p.1 p.2)) = true ↔
    (L1.length = L2.length ∧ ∀ (i : Nat) (h1 : i < L1.length) (h2 : i < L2.length),
      Element.ion_eq L1[i] L2[i] = true) := by
  simp only [Bool.and_eq_true, decide_eq_true_eq, List.all_eq_true]
  constructor
  · rintro ⟨hlen, hall⟩
    refine ⟨hlen, fun i h1 h2 => ?_⟩
    have hz : i < (L1.zip L2).length := by rw [List.length_zip]; omega
    have hm := hall ((L1.zip L2)[i]) (List.getElem_mem hz)
    rw [List.getElem_zip] at hm
    exact hm
  · rintro ⟨hlen, hidx⟩
    refine ⟨hlen, fun p hp => ?_⟩
    obtain ⟨i, hi, hpe⟩ := List.getElem_of_mem hp
    have h1 : i < L1.length := by rw [List.length_zip] at hi; omega
    have h2 : i < L2.length := by rw [List.length_zip] at hi; omega
    rw [← hpe, List.getElem_zip]
    exact hidx i h1 h2

/-- One-step unfolding of `IonEq for Vec<Element>`
(`src/element/owned.rs:412`). -/
theorem elemVecIonEq_unfold (l1 l2 : List Element) :
    elemVecIonEq l1 l2 =
      (decide (l1.length = l2.length) && (l1.zip l2).all (fun p => Element.ion_eq p.1 p.2)) := by
  unfold elemVecIonEq runReq
  rw [eqRun]
  congr 1
  apply all_congr_mem
  rintro ⟨a, b⟩ hp
  obtain ⟨ha, hb⟩ := List.of_mem_zip hp
  exact runReq_eq (.ionElemEq a b) _
    (by have h1 := elemWt_lt_of_mem ha; have h2 := elemWt_lt_of_mem hb
        simp only [EqReq.fuelNeed]; omega)



/-! ### Concrete fixtures used by the claims -/

/-- The struct `{a: 4, a: 4}`. -/
def structAA4 : Struct :=
  Struct.from_iter [(.known ("a"), Element.integer 4), (.known ("a"), Element.integer 4)]

/-- The struct `{a: 4, a: a::4}` (second value annotated). -/
def structAA4ann : Struct :=
  Struct.from_iter
    [(.known ("a"), Element.integer 4), (.known ("a"), Element.mk [.known ("a")] (Value.int 4))]

/-- The struct `{a: 1, b: 2}`. -/
def structA1B2 : Struct :=
  Struct.from_iter [(.known ("a"), Element.integer 1), (.known ("b"), Element.integer 2)]

/-- The struct `{b: 2, a: 1}`. -/
def structB2A1 : Struct :=
  Struct.from_iter [(.known ("b"), Element.integer 2), (.known ("a"), Element.integer 1)]

/-- A struct `{a: NaN}`. -/
def structNaN1 : Struct := Struct.from_iter [(.known ("a"), Element.float .nan)]

/-- A second, separately constructed struct `{a: NaN}`. -/
def structNaN2 : Struct := Struct.from_iter [(.known ("a"), Element.float .nan)]

/-- The struct built from fields inserted as `[("a",1), ("a",2)]`. -/
def structA12 : Struct :=
  Struct.from_iter [(.known ("a"), Element.integer 1), (.known ("a"), Element.integer 2)]

/-! ### The claims -/

/-- Claim C1: for the Element wrapping a float NaN payload, format
equivalence and structural equality diverge:
`Element::float(NAN).ion_eq(&Element::float(NAN))` returns `true`, while
`Element::float(NAN) == Element::float(NAN)` returns `false`. -/
theorem claim_C1 :
    Element.ion_eq (Element.float .nan) (Element.float .nan) = true ∧
    Element.eq (Element.float .nan) (Element.float .nan) = false := by
  constructor <;> decide

/-- Claim C2: struct structural equality (`==`) holds iff the two
structs have equal field counts and the per-name bucket-containment
check (`fields_eq`) passes in both directions; consequently
`{a:4, a:4} == {a:4, a::4}` is false, `{a:4, a::4} == {a:4, a:4}` is
false, and `{a:1, b:2} == {b:2, a:1}` is true. -/
theorem claim_C2 :
    (∀ s1 s2 : Struct, Struct.eq s1 s2 = true ↔
      (s1.len = s2.len ∧ Struct.fields_eq s1 s2 = true ∧ Struct.fields_eq s2 s1 = true)) ∧
    Struct.eq structAA4 structAA4ann = false ∧
    Struct.eq structAA4ann structAA4 = false ∧
    Struct.eq structA1B2 structB2A1 = true := by
  refine ⟨fun s1 s2 => ?_, by decide, by decide, by decide⟩
  rw [Struct.eq_unfold]
  simp [Bool.and_eq_true, and_assoc]

/-- Claim C3 counterexample: the claim says the bucket-containment
check inside struct `==` compares field values by structural equality
(under which a NaN value never equals itself), which would make
`{a: NaN} == {a: NaN}` false; but the code compares the values with
`ion_eq` (format equivalence), so the two structs are `==` even though
their only field values are not structurally equal. -/
theorem claim_C3_counterexample :
    Struct.eq structNaN1 structNaN2 = true ∧
    Element.eq (Element.float .nan) (Element.float .nan) = false ∧
    Element.ion_eq (Element.float .nan) (Element.float .nan) = true := by
  refine ⟨by decide, by decide, by decide⟩

/-- Claim C3 (amended): within struct structural equality, the
containment check of one struct's same-named value bucket against the
other's compares the individual field values using format equivalence
(`Element.ion_eq`), not structural equality. -/
theorem claim_C3_amended (s1 s2 : Struct) :
    Struct.fields_eq s1 s2 =
      s1.fields.byName.all (fun b =>
        match s2.fields.get_indexes b.1 with
        | none => false
        | some odxs =>
          decide (b.2.length = odxs.length) &&
            (s1.fields.get_values_at_indexes b.2).all (fun fv =>
              !((s2.fields.get_values_at_indexes odxs).all (fun ov =>
                !(Element.ion_eq fv ov))))) :=
  Struct.fields_eq_unfold s1 s2

/-- Claim C4: for every struct built from an insertion-ordered pair
list, `get(name)` returns the element at the last insertion-order
occurrence of that name (`none` if absent), and `get_all(name)` yields
every element carrying that name in insertion order; concretely, for
fields `[("a",1), ("a",2)]`, `get("a")` yields 2 and `get_all("a")`
yields `[1, 2]`. -/
theorem claim_C4 :
    (∀ (ps : List (Symbol × Element)) (k : Symbol),
      Struct.get (Struct.from_iter ps) k =
        ((ps.filter (fun q => Symbol.eq q.1 k)).getLast?).map Prod.snd ∧
      Struct.get_all (Struct.from_iter ps) k =
        (ps.filter (fun q => Symbol.eq q.1 k)).map Prod.snd) ∧
    Struct.get structA12 (.known ("a")) = some (Element.integer 2) ∧
    Struct.get_all structA12 (.known ("a")) = [Element.integer 1, Element.integer 2] :=
  ⟨fun ps k => ⟨struct_get_from_iter ps k, struct_get_all_from_iter ps k⟩, rfl, rfl⟩

/-- Claim C5: struct name lookup is two-tiered. A lookup key with no
text resolves to the single reserved unknown-text bucket, so the result
is independent of the key's placeholder identity and collects exactly
the fields whose name lacks text; a lookup key with resolved text
collects exactly the fields stored under that text (never the textless
ones). -/
theorem claim_C5 (ps : List (Symbol × Element)) (i j : Nat) (t : String) :
    ((Struct.from_iter ps).fields.get_indexes (.unknown i) =
      (Struct.from_iter ps).fields.get_indexes (.unknown j)) ∧
    ((Struct.from_iter ps).fields.get_indexes (.unknown i) =
      alistGet (Struct.from_iter ps).fields.byName Symbol.unknown_text) ∧
    ((Struct.from_iter ps).fields.get_indexes (.unknown i) =
      if ps.any (fun q => decide (q.1.text = none)) = true
      then some ((List.range ps.length).filter (fun n =>
        match ps[n]? with
        | some q => decide (q.1.text = none)
        | none => false))
      else none) ∧
    ((Struct.from_iter ps).fields.get_indexes (.known t) =
      if ps.any (fun q => decide (q.1.text = some t)) = true
      then some ((List.range ps.length).filter (fun n =>
        match ps[n]? with
        | some q => decide (q.1.text = some t)
        | none => false))
      else none) := by
  refine ⟨?_, rfl, get_indexes_unknown_char ps i, get_indexes_known_char ps t⟩
  rw [get_indexes_unknown_char ps i, get_indexes_unknown_char ps j]

/-- Claim C6: for every pair of Elements, `ion_eq` holds iff the
annotation sequences are structurally equal (ordered, element-wise) and
the contained values are format-equivalent; in particular equivalence
of the values alone is not sufficient when the annotations differ. -/
theorem claim_C6 (e1 e2 : Element) :
    Element.ion_eq e1 e2 = true ↔
      (symListEq e1.annotations e2.annotations = true ∧
        Value.ion_eq e1.value e2.value = true) := by
  obtain ⟨a1, v1⟩ := e1
  obtain ⟨a2, v2⟩ := e2
  rw [Element.ion_eq_mk]
  simp [Element.annotations, Element.value, Bool.and_eq_true]

/-- Claim C7: for two Lists, two SExps, or two element vectors,
`ion_eq` holds iff they have the same length and the children at every
position are format-equivalent (an ordered comparison). -/
theorem claim_C7 (l1 l2 : IonList) (x1 x2 : SExp) (v1 v2 : List Element) :
    (IonList.ion_eq l1 l2 = true ↔
      (l1.children.length = l2.children.length ∧
        ∀ (i : Nat) (h1 : i < l1.children.length) (h2 : i < l2.children.length),
          Element.ion_eq l1.children[i] l2.children[i] = true)) ∧
    (SExp.ion_eq x1 x2 = true ↔
      (x1.children.length = x2.children.length ∧
        ∀ (i : Nat) (h1 : i < x1.children.length) (h2 : i < x2.children.length),
          Element.ion_eq x1.children[i] x2.children[i] = true)) ∧
    (elemVecIonEq v1 v2 = true ↔
      (v1.length = v2.length ∧
        ∀ (i : Nat) (h1 : i < v1.length) (h2 : i < v2.length),
          Element.ion_eq v1[i] v2[i] = true)) := by
  refine ⟨?_, ?_, ?_⟩
  · rw [ionList_ion_eq_unfold]
    exact zip_all_ion_iff _ _
  · rw [sexp_ion_eq_unfold]
    exact zip_all_ion_iff _ _
  · rw [elemVecIonEq_unfold]
    exact zip_all_ion_iff _ _

/-- Witness for claim C7: the pointwise condition is discharged at a
concrete singleton list, recovering `ion_eq`. -/
theorem claim_C7_witness :
    IonList.ion_eq (IonList.mk [Element.integer 1]) (IonList.mk [Element.integer 1]) = true :=
  (claim_C7 (IonList.mk [Element.integer 1]) (IonList.mk [Element.integer 1])
      (SExp.mk []) (SExp.mk []) [] []).1.mpr
    ⟨rfl, fun i h1 h2 => by
      have hi0 : i = 0 := Nat.lt_one_iff.mp (by simpa [IonList.children] using h1)
      subst hi0
      exact (by decide : Element.ion_eq (Element.integer 1) (Element.integer 1) = true)⟩

/-- Optional list indexing succeeds exactly when the index is in
range. -/
theorem getElem?_isSome_iff {α : Type} (l : List α) (i : Nat) :
    l[i]?.isSome = true ↔ i < l.length := by
  constructor
  · intro h
    obtain ⟨a, ha⟩ := Option.isSome_iff_exists.mp h
    exact (List.getElem?_eq_some_iff.mp ha).1
  · intro h
    simp [List.getElem?_eq_getElem h]

/-- Claim C8: every typed accessor on Element returns a present result
iff the active Value variant matches (and `none` otherwise, totally -
there is no failure path), and sequence `get(index)` is the total
optional indexing of the children, absent exactly when the index is out
of range. -/
theorem claim_C8 (e : Element) (l : IonList) (x : SExp) (i : Nat) :
    (e.as_int.isSome = true ↔ ∃ v, e.value = Value.int v) ∧
    (e.as_float.isSome = true ↔ ∃ v, e.value = Value.float v) ∧
    (e.as_decimal.isSome = true ↔ ∃ v, e.value = Value.decimal v) ∧
    (e.as_timestamp.isSome = true ↔ ∃ v, e.value = Value.timestamp v) ∧
    (e.as_string.isSome = true ↔ ∃ v, e.value = Value.string v) ∧
    (e.as_symbol.isSome = true ↔ ∃ v, e.value = Value.symbol v) ∧
    (e.as_bool.isSome = true ↔ ∃ v, e.value = Value.bool v) ∧
    (e.as_blob.isSome = true ↔ ∃ v, e.value = Value.blob v) ∧
    (e.as_clob.isSome = true ↔ ∃ v, e.value = Value.clob v) ∧
    (e.as_sexp.isSome = true ↔ ∃ v, e.value = Value.sexp v) ∧
    (e.as_list.isSome = true ↔ ∃ v, e.value = Value.list v) ∧
    (e.as_struct.isSome = true ↔ ∃ v, e.value = Value.strukt v) ∧
    (l.get i = l.children[i]?) ∧
    ((l.get i).isSome = true ↔ i < l.len) ∧
    ((x.get i).isSome = true ↔ i < x.len) := by
  obtain ⟨a, v⟩ := e
  obtain ⟨lch⟩ := l
  obtain ⟨xch⟩ := x
  cases v <;>
    simp [Element.as_int, Element.as_float, Element.as_decimal, Element.as_timestamp,
      Element.as_string, Element.as_symbol, Element.as_bool, Element.as_blob,
      Element.as_clob, Element.as_sexp, Element.as_list, Element.as_struct,
      Element.value, IonList.get, IonList.len, IonList.children,
      SExp.get, SExp.len, SExp.children, getElem?_isSome_iff]

/-- Claim C9: for every struct constructed from a finite pair list,
`by_name` is a complete and consistent secondary index over `by_index`:
`by_index` is the input in insertion order, every bucket holds exactly
the (ascending, insertion-ordered) positions whose field name equals
the bucket key, and every in-range position appears in exactly one
bucket. -/
theorem claim_C9 (ps : List (Symbol × Element)) :
    (Struct.from_iter ps).fields.byIndex = ps ∧
    (∀ b, b ∈ (Struct.from_iter ps).fields.byName → b.2 = lookupIdxs ps b.1) ∧
    (∀ i, i < ps.length →
      ∃ b, b ∈ (Struct.from_iter ps).fields.byName ∧ i ∈ b.2 ∧
        ∀ c, c ∈ (Struct.from_iter ps).fields.byName → i ∈ c.2 → c = b) := by
  refine ⟨byIndex_from_iter ps, fun b hb => byName_bucket_eq ps hb, fun i hi => ?_⟩
  have hq : ps[i]? = some ps[i] := List.getElem?_eq_getElem hi
  have hmem : ps[i] ∈ ps := List.getElem_mem hi
  have hany : ps.any (fun q => Symbol.eq q.1 (ps[i]).1) = true :=
    List.any_eq_true.mpr ⟨ps[i], hmem, Symbol.eq_refl _⟩
  have hget := alistGet_from_iter ps (ps[i]).1
  rw [if_pos hany] at hget
  unfold alistGet at hget
  obtain ⟨b, hfind, hb2⟩ := Option.map_eq_some'.mp hget
  have hbmem : b ∈ (Struct.from_iter ps).fields.byName := List.mem_of_find?_eq_some hfind
  have hbkey : Symbol.eq b.1 (ps[i]).1 = true := by
    have hp := List.find?_some hfind
    simpa using hp
  have himem : i ∈ b.2 := by
    rw [hb2]
    unfold lookupIdxs
    refine List.mem_filter.mpr ⟨List.mem_range.mpr hi, ?_⟩
    simp only [hq]
    exact Symbol.eq_refl _
  refine ⟨b, hbmem, himem, fun c hc hic => ?_⟩
  have hc2 := byName_bucket_eq ps hc
  rw [hc2] at hic
  unfold lookupIdxs at hic
  have hpred := List.of_mem_filter hic
  simp only [hq] at hpred
  have hkey2 : Symbol.eq c.1 b.1 = true := by
    have h1 : Symbol.eq c.1 (ps[i]).1 = true := by
      rw [Symbol.eq_symm]
      exact hpred
    rw [Symbol.eq_symm] at hbkey
    exact Symbol.eq_trans h1 hbkey
  exact pairwise_eq_of_key_eq (byName_pairwise ps) hc hbmem hkey2

/-- Witness for claim C9: the index invariant applied to the concrete
one-field struct `{a: 1}`, position 0. -/
theorem claim_C9_witness :
    (Struct.from_iter [(Symbol.known ("a"), Element.integer 1)]).fields.byIndex =
      [(Symbol.known ("a"), Element.integer 1)] ∧
    ∃ b, b ∈ (Struct.from_iter [(Symbol.known ("a"), Element.integer 1)]).fields.byName ∧
      0 ∈ b.2 ∧
      ∀ c, c ∈ (Struct.from_iter [(Symbol.known ("a"), Element.integer 1)]).fields.byName →
        0 ∈ c.2 → c = b :=
  ⟨(claim_C9 [(Symbol.known ("a"), Element.integer 1)]).1,
    (claim_C9 [(Symbol.known ("a"), Element.integer 1)]).2.2 0 (by decide)⟩

/-- Claim C10: `with_annotations` replaces: the result carries exactly
the given annotation sequence and exactly the original value; any
previously attached annotations are discarded. -/
theorem claim_C10 (e : Element) (anns : List Symbol) :
    (e.with_annotations anns).value = e.value ∧
    (e.with_annotations anns).annotations = anns := by
  cases e
  exact ⟨rfl, rfl⟩

end Ion
